import Mathlib

/-!
Verification of the herbisveritas utility scripts against their
natural-language specification.

The repository holds two independent scripts:
* `pdf_to_md.py` — the Batch Document Converter: lists the "doc" directory,
  and for every entry whose name ends in ".pdf" extracts its text
  (via `pdfminer.high_level.extract_text`) and writes it, UTF-8 encoded,
  to a sibling file whose name is `os.path.splitext(name)[0] + ".md"`.
* `create-test-image.py` — the Image Generator: builds a 300×200 "lightblue"
  RGB canvas, draws "Test Image" at (50, 90) in "black", saves it as JPEG to
  "test-image.jpg" and prints a confirmation line.

The shallow embedding below models paths and file contents as lists of
characters, the file system as a map from paths to nodes (regular file with
content, or directory), and the two external collaborators — the PDF text
extraction library and the OS-level permission to open a file for writing —
as opaque components of an environment record.  Fallible operations return
`Except`.
-/

namespace HerbisVeritas

/-- File paths, modelled as their character sequences. -/
abbrev Path := List Char

/-- File contents (bytes / text), modelled as character sequences. -/
abbrev Content := List Char

/-- A file-system node: a regular file with its content, or a directory. -/
inductive Node where
  | file (content : Content)
  | dir
deriving DecidableEq

/-- The file system: a partial map from absolute-ish paths (as produced by
`os.path.join`) to nodes.  `none` means no entry exists at that path. -/
abbrev FS := Path → Option Node

/-- Errors that the underlying runtime can raise: a missing file, opening a
directory as a file, a failure inside the PDF extraction library, or a
denied write. -/
inductive Err where
  | fileNotFound
  | isADirectory
  | extractFailed
  | writeDenied
deriving DecidableEq

/-- The opaque external collaborators of `pdf_to_md.py`:
`extract` is the pdfminer text extraction applied to the bytes of a PDF file
(it may fail on malformed input); `writePerm` is the OS check performed by
`open(md_path, "w")` (it may fail, e.g. with a permission error).  A
successful write stores the written string verbatim. -/
structure Env where
  extract : Content → Except Err Content
  writePerm : Path → Except Err Unit

/-- Index of the last occurrence of `c` in `l` (Python `str.rfind`, as a
partial value: `none` when `c` does not occur). -/
def rfindIdx (c : Char) : List Char → Option Nat
  | [] => none
  | x :: xs =>
    match rfindIdx c xs with
    | some i => some (i + 1)
    | none => if x = c then some 0 else none

/-- `os.path.splitext` (POSIX flavour): split at the last dot that lies after
the last path separator, except that leading dots of the base name never
start an extension (so `splitext(".pdf") = (".pdf", "")`). -/
def splitext (p : List Char) : List Char × List Char :=
  let start := match rfindIdx '/' p with
    | none => 0
    | some i => i + 1
  match rfindIdx '.' p with
  | none => (p, [])
  | some dotIdx =>
    if ((p.drop start).take (dotIdx - start)).any (fun c => c != '.') then
      (p.take dotIdx, p.drop dotIdx)
    else
      (p, [])

/-- `os.path.join` (POSIX flavour) for two components. -/
def join (a b : Path) : Path :=
  if b.head? = some '/' then b
  else if a = [] ∨ a.getLast? = some '/' then a ++ b
  else a ++ '/' :: b

/-- The hardcoded input directory `pdf_dir = "doc"`. -/
def docDir : Path := "doc".data

/-- The suffix checked by `filename.endswith(".pdf")`. -/
def pdfSuffix : Path := ".pdf".data

/-- The extension appended to the split base name, `".md"`. -/
def mdSuffix : Path := ".md".data

/-- Point update of the file-system map. -/
def update (fs : FS) (p : Path) (n : Node) : FS :=
  fun q => if q = p then some n else fs q

/-- `extract_text(pdf_path)`: open the file at `p` and run the PDF
extraction on its bytes.  A missing path or a directory raises, mirroring
`FileNotFoundError` / `IsADirectoryError` from `open`. -/
def extract_text (env : Env) (fs : FS) (p : Path) : Except Err Content :=
  match fs p with
  | none => .error .fileNotFound
  | some .dir => .error .isADirectory
  | some (.file c) => env.extract c

/-- `pdf_to_markdown(pdf_path, md_path)`: extract the text of the PDF at
`pdf_path` and write it verbatim to `md_path`, creating or overwriting the
destination.  Any failure propagates. -/
def pdf_to_markdown (env : Env) (fs : FS) (pdf_path md_path : Path) :
    Except Err FS :=
  match extract_text env fs pdf_path with
  | .error e => .error e
  | .ok text =>
    match env.writePerm md_path with
    | .error e => .error e
    | .ok _ => .ok (update fs md_path (.file text))

/-- `md_filename = os.path.splitext(filename)[0] + ".md"`. -/
def mdFilename (filename : Path) : Path := (splitext filename).1 ++ mdSuffix

/-- Destination path of a directory entry:
`os.path.join(pdf_dir, md_filename)`. -/
def destOf (filename : Path) : Path := join docDir (mdFilename filename)

/-- One iteration of the loop body: entries whose name ends in ".pdf" are
converted, every other entry is ignored. -/
def processEntry (env : Env) (fs : FS) (filename : Path) : Except Err FS :=
  if pdfSuffix <:+ filename then
    pdf_to_markdown env fs (join docDir filename) (destOf filename)
  else
    .ok fs

/-- The `__main__` loop of `pdf_to_md.py`, iterating over the entry names
returned by `os.listdir(pdf_dir)` in their listing order.  The first failure
aborts the whole batch. -/
def runConverter (env : Env) (fs : FS) : List Path → Except Err FS
  | [] => .ok fs
  | name :: rest =>
    match processEntry env fs name with
    | .error e => .error e
    | .ok fs1 => runConverter env fs1 rest

/-- The entries of a listing that pass the `.endswith(".pdf")` filter. -/
def matchedPdfs (entries : List Path) : List Path :=
  entries.filter (fun n => decide (pdfSuffix <:+ n))

/-- The last entry of the listing (in iteration order) that is matched and
whose derived destination is `p` — the writer whose output survives at `p`. -/
def lastWriter (entries : List Path) (p : Path) : Option Path :=
  (matchedPdfs entries).reverse.find? (fun n => decide (destOf n = p))

/-- Two file systems that agree on every path that does not end in ".md"
(in particular on every source PDF the converter can read). -/
def agreeNonMd (fs₁ fs₂ : FS) : Prop :=
  ∀ p, ¬ mdSuffix <:+ p → fs₁ p = fs₂ p

/-- An in-memory PIL image: mode, dimensions, and the colour of each pixel. -/
structure PILImage where
  mode : String
  width : Nat
  height : Nat
  pixel : Nat → Nat → String

/-- `Image.new(mode, size, color)`: a canvas of the given size with every
pixel set to the background colour. -/
def imageNew (mode : String) (size : Nat × Nat) (color : String) : PILImage :=
  { mode := mode, width := size.1, height := size.2, pixel := fun _ _ => color }

/-- The opaque external collaborators of `create-test-image.py`: the font
rasteriser behind `draw.text` (a transformation of the pixel grid) and the
image encoder behind `img.save` (format and image to encoded bytes). -/
structure ImgEnv where
  renderText : Nat × Nat → String → String → (Nat → Nat → String) → Nat → Nat → String
  encode : String → PILImage → String

/-- `draw.text(pos, s, fill)`: draw on the pixel grid of the same image;
mode and dimensions are untouched. -/
def drawText (env : ImgEnv) (pos : Nat × Nat) (s fill : String)
    (img : PILImage) : PILImage :=
  { img with pixel := env.renderText pos s fill img.pixel }

/-- The observable world of the image script: files on disk and the lines
printed to standard output. -/
structure World where
  files : String → Option String
  out : List String

/-- `img.save(path, fmt)`: encode the image and store the result at `path`,
creating or overwriting the file. -/
def imgSave (env : ImgEnv) (img : PILImage) (path fmt : String) (w : World) :
    World :=
  { w with files := fun q => if q = path then some (env.encode fmt img) else w.files q }

/-- `print(s)`: append one line to standard output. -/
def printLine (s : String) (w : World) : World :=
  { w with out := w.out ++ [s] }

/-- The whole of `create-test-image.py` as a straight-line program. -/
def createTestImage (env : ImgEnv) (w : World) : World :=
  let img := imageNew "RGB" (300, 200) "lightblue"
  let img2 := drawText env (50, 90) "Test Image" "black" img
  let w1 := imgSave env img2 "test-image.jpg" "JPEG" w
  printLine "Test image created successfully" w1

/-- Extraction environment whose extraction returns the raw bytes and whose
writes always succeed; used for concrete test runs. -/
def envId : Env :=
  { extract := fun c => .ok c, writePerm := fun _ => .ok () }

/-- Environment whose extraction always fails; used for concrete failure
runs. -/
def envFail : Env :=
  { extract := fun _ => .error .extractFailed, writePerm := fun _ => .ok () }

/-- Concrete directory: a single PDF file "doc/a.pdf" with content "hello". -/
def fsA : FS :=
  fun p => if p = "doc/a.pdf".data then some (.file "hello".data) else none

/-- Concrete directory holding the two PDF files "a.pdf" and "b.pdf". -/
def fsAB : FS :=
  fun p =>
    if p = "doc/a.pdf".data then some (.file "hello".data)
    else if p = "doc/b.pdf".data then some (.file "world".data)
    else none

/-- Concrete directory: a subdirectory named "doc/sub.pdf". -/
def fsSub : FS :=
  fun p => if p = "doc/sub.pdf".data then some .dir else none

/-- Concrete directory: the single file named exactly ".pdf". -/
def fsDotOnly : FS :=
  fun p => if p = "doc/.pdf".data then some (.file "A".data) else none

/-- Concrete directory: files ".pdf" (content "A") and ".pdf.pdf"
(content "B"), whose derived destinations collide at "doc/.pdf.md". -/
def fsDot : FS :=
  fun p =>
    if p = "doc/.pdf".data then some (.file "A".data)
    else if p = "doc/.pdf.pdf".data then some (.file "B".data)
    else none

/-- The state of `fsA` after one successful conversion of "a.pdf". -/
def fsAafter : FS := update fsA "doc/a.md".data (.file "hello".data)

/-- The state of `fsAB` after converting "a.pdf" and then "b.pdf". -/
def fsABboth1 : FS :=
  update (update fsAB "doc/a.md".data (.file "hello".data))
    "doc/b.md".data (.file "world".data)

/-- The state of `fsAB` after converting "b.pdf" and then "a.pdf". -/
def fsABboth2 : FS :=
  update (update fsAB "doc/b.md".data (.file "world".data))
    "doc/a.md".data (.file "hello".data)

/-- A concrete image environment for test runs: a rasteriser that leaves the
pixel grid unchanged and a constant encoder. -/
def imgEnvConst : ImgEnv :=
  { renderText := fun _ _ _ px => px, encode := fun _ _ => "bytes" }

/-- A world with no files and empty standard output. -/
def worldEmpty : World := { files := fun _ => none, out := [] }

/-- The second component of `os.path.join` is always a suffix of the result. -/
theorem suffix_join (a b : Path) : b <:+ join a b := by
  unfold join
  split
  · exact List.suffix_refl b
  split
  · exact List.suffix_append a b
  · exact (List.suffix_cons '/' b).trans (List.suffix_append a ('/' :: b))

/-- Every derived destination path ends in ".md". -/
theorem mdSuffix_destOf (n : Path) : mdSuffix <:+ destOf n :=
  (List.suffix_append (splitext n).1 mdSuffix).trans (suffix_join docDir (mdFilename n))

/-- A path ending in ".pdf" does not end in ".md". -/
theorem pdf_not_md {p : Path} (h : pdfSuffix <:+ p) : ¬ mdSuffix <:+ p := by
  intro hmd
  rcases List.suffix_or_suffix_of_suffix h hmd with h1 | h1
  · exact absurd h1 (by decide)
  · exact absurd h1 (by decide)

/-- Joining onto the "doc" directory preserves the ".pdf" suffix. -/
theorem pdfSuffix_join {n : Path} (h : pdfSuffix <:+ n) :
    pdfSuffix <:+ join docDir n :=
  h.trans (suffix_join docDir n)

/-- A source path (ending ".pdf") is never a destination path (ending ".md"). -/
theorem join_pdf_ne_md {n q : Path} (hn : pdfSuffix <:+ n) (hq : mdSuffix <:+ q) :
    join docDir n ≠ q := by
  intro e
  exact pdf_not_md (pdfSuffix_join hn) (e ▸ hq)

/-- Updating a map at a point stores the node there. -/
theorem update_eq (fs : FS) (p : Path) (n : Node) : update fs p n p = some n := by
  simp [update]

/-- Updating a map at a point leaves every other point unchanged. -/
theorem update_ne (fs : FS) (p : Path) (n : Node) (q : Path) (h : q ≠ p) :
    update fs p n q = fs q := by
  simp [update, h]

/-- Extraction at a path only reads the file system at that path. -/
theorem extract_text_congr (env : Env) (fs₁ fs₂ : FS) (p : Path)
    (h : fs₁ p = fs₂ p) :
    extract_text env fs₁ p = extract_text env fs₂ p := by
  unfold extract_text
  rw [h]

/-- An entry whose name does not end in ".pdf" is skipped without effect. -/
theorem processEntry_skip (env : Env) (fs : FS) (name : Path)
    (h : ¬ pdfSuffix <:+ name) :
    processEntry env fs name = .ok fs := by
  simp [processEntry, h]

/-- Inversion of a successful conversion of a matched entry: extraction and
the write permission both succeeded, and the result is a point update of the
destination with the extracted text. -/
theorem processEntry_matched_inv (env : Env) (fs g : FS) (name : Path)
    (hm : pdfSuffix <:+ name)
    (h : processEntry env fs name = .ok g) :
    ∃ t, extract_text env fs (join docDir name) = .ok t ∧
      env.writePerm (destOf name) = .ok () ∧
      g = update fs (destOf name) (.file t) := by
  unfold processEntry at h
  rw [if_pos hm] at h
  unfold pdf_to_markdown at h
  split at h
  · exact absurd h (by simp)
  next t hex =>
    split at h
    · exact absurd h (by simp)
    next u hw =>
      cases u
      injection h with h
      exact ⟨t, hex, hw, h.symm⟩

/-- Inversion of a successful run on a cons cell: the head step succeeded
and the tail run continues from its result. -/
theorem runConverter_cons_ok_inv (env : Env) (fs g : FS) (name : Path)
    (rest : List Path)
    (h : runConverter env fs (name :: rest) = .ok g) :
    ∃ fs1, processEntry env fs name = .ok fs1 ∧
      runConverter env fs1 rest = .ok g := by
  unfold runConverter at h
  split at h
  · exact absurd h (by simp)
  next fs1 hq => exact ⟨fs1, hq, h⟩

/-- One loop iteration never touches a path that does not end in ".md". -/
theorem processEntry_frame (env : Env) (fs g : FS) (name : Path)
    (h : processEntry env fs name = .ok g) :
    ∀ p, ¬ mdSuffix <:+ p → g p = fs p := by
  intro p hp
  by_cases hm : pdfSuffix <:+ name
  · obtain ⟨t, _, _, rfl⟩ := processEntry_matched_inv env fs g name hm h
    refine update_ne fs (destOf name) (.file t) p ?_
    intro e
    exact hp (e ▸ mdSuffix_destOf name)
  · rw [processEntry_skip env fs name hm] at h
    injection h with h
    rw [h]

/-- A whole run never touches a path that does not end in ".md". -/
theorem runConverter_frame (env : Env) (entries : List Path) :
    ∀ fs g : FS, runConverter env fs entries = .ok g →
      ∀ p, ¬ mdSuffix <:+ p → g p = fs p := by
  induction entries with
  | nil =>
    intro fs g h p _
    unfold runConverter at h
    injection h with h
    rw [h]
  | cons name rest ih =>
    intro fs g h p hp
    obtain ⟨fs1, hq, hrest⟩ := runConverter_cons_ok_inv env fs g name rest h
    rw [ih fs1 g hrest p hp]
    exact processEntry_frame env fs fs1 name hq p hp

/-- Unfolding equation of the run on the empty listing. -/
theorem runConverter_nil (env : Env) (fs : FS) :
    runConverter env fs [] = .ok fs := rfl

/-- Unfolding equation of the run on a non-empty listing. -/
theorem runConverter_cons (env : Env) (fs : FS) (name : Path)
    (rest : List Path) :
    runConverter env fs (name :: rest) =
      match processEntry env fs name with
      | .error e => .error e
      | .ok fs1 => runConverter env fs1 rest := rfl

/-- Decomposition of a run over a concatenated listing. -/
theorem runConverter_append (env : Env) (l₁ l₂ : List Path) :
    ∀ fs : FS, runConverter env fs (l₁ ++ l₂) =
      match runConverter env fs l₁ with
      | .error e => .error e
      | .ok g => runConverter env g l₂ := by
  induction l₁ with
  | nil => intro fs; rfl
  | cons name rest ih =>
    intro fs
    rw [List.cons_append, runConverter_cons, runConverter_cons]
    cases hq : processEntry env fs name with
    | error e => rfl
    | ok fs1 => exact ih fs1

/-- The run is determined by the matched entries: unmatched names drop out. -/
theorem runConverter_filter (env : Env) (entries : List Path) :
    ∀ fs : FS, runConverter env fs entries =
      runConverter env fs (matchedPdfs entries) := by
  induction entries with
  | nil => intro fs; rfl
  | cons name rest ih =>
    intro fs
    unfold matchedPdfs
    rw [List.filter_cons]
    by_cases hm : pdfSuffix <:+ name
    · rw [if_pos (decide_eq_true hm)]
      rw [runConverter_cons, runConverter_cons]
      cases hq : processEntry env fs name with
      | error e => rfl
      | ok fs1 => exact ih fs1
    · rw [if_neg (fun h => hm (of_decide_eq_true h))]
      rw [runConverter_cons, processEntry_skip env fs name hm]
      exact ih fs

/-- No writer exists in an empty listing. -/
theorem lastWriter_nil (p : Path) : lastWriter [] p = none := rfl

/-- Unfolding of `lastWriter` on a non-empty listing: later entries win, and
the head entry is the writer only when it is matched, its destination is the
queried path, and no later entry writes there. -/
theorem lastWriter_cons (name : Path) (rest : List Path) (p : Path) :
    lastWriter (name :: rest) p =
      if pdfSuffix <:+ name then
        (lastWriter rest p).or (if destOf name = p then some name else none)
      else lastWriter rest p := by
  unfold lastWriter matchedPdfs
  rw [List.filter_cons]
  by_cases hm : pdfSuffix <:+ name
  · rw [if_pos (decide_eq_true hm), if_pos hm, List.reverse_cons, List.find?_append]
    by_cases hd : destOf name = p
    · rw [if_pos hd]
      have : List.find? (fun n => decide (destOf n = p)) [name] = some name := by
        simp [List.find?, hd]
      rw [this]
    · rw [if_neg hd]
      have : List.find? (fun n => decide (destOf n = p)) [name] = none := by
        simp [List.find?, hd]
      rw [this]
  · rw [if_neg (fun h => hm (of_decide_eq_true h)), if_neg hm]

/-- If `lastWriter` returns `n`, then `n` is a matched member of the listing
whose destination is `p`. -/
theorem lastWriter_mem {entries : List Path} {p n : Path}
    (h : lastWriter entries p = some n) :
    n ∈ entries ∧ pdfSuffix <:+ n ∧ destOf n = p := by
  unfold lastWriter at h
  have hmem := List.mem_of_find?_eq_some h
  have hq := List.find?_some h
  rw [List.mem_reverse] at hmem
  have h1 := List.mem_of_mem_filter hmem
  have h2 := List.of_mem_filter hmem
  exact ⟨h1, of_decide_eq_true h2, of_decide_eq_true hq⟩

/-- A matched entry guarantees a writer for its own destination. -/
theorem lastWriter_of_matched {entries : List Path} {n : Path}
    (hmem : n ∈ entries) (hpdf : pdfSuffix <:+ n) :
    lastWriter entries (destOf n) ≠ none := by
  unfold lastWriter
  intro h
  rw [List.find?_eq_none] at h
  refine h n ?_ (by simp)
  rw [List.mem_reverse]
  exact List.mem_filter.2 ⟨hmem, decide_eq_true hpdf⟩

/-- `find?` over a list whose satisfying elements are all equal is invariant
under permutation. -/
theorem find?_eq_of_perm_unique {α : Type} (q : α → Bool) (l₁ l₂ : List α)
    (hperm : List.Perm l₁ l₂)
    (huniq : ∀ a ∈ l₁, ∀ b ∈ l₁, q a = true → q b = true → a = b) :
    l₁.find? q = l₂.find? q := by
  cases h1 : l₁.find? q with
  | none =>
    rw [List.find?_eq_none] at h1
    cases h2 : l₂.find? q with
    | none => rfl
    | some b =>
      have hb := List.find?_some h2
      have hbm := List.mem_of_find?_eq_some h2
      exact absurd hb (h1 b (hperm.mem_iff.2 hbm))
  | some a =>
    have ha := List.find?_some h1
    have ham := List.mem_of_find?_eq_some h1
    cases h2 : l₂.find? q with
    | none =>
      rw [List.find?_eq_none] at h2
      exact absurd ha (h2 a (hperm.mem_iff.1 ham))
    | some b =>
      have hb := List.find?_some h2
      have hbm := hperm.mem_iff.2 (List.mem_of_find?_eq_some h2)
      rw [huniq a ham b hbm ha hb]

/-- Characterisation of a successful run: at every path, either no matched
entry targets it (and it is untouched), or it holds the text extracted —
from the initial file system — out of the last entry that targets it. -/
theorem runConverter_char (env : Env) (entries : List Path) :
    ∀ fs g : FS, runConverter env fs entries = .ok g → ∀ p,
      (match lastWriter entries p with
       | some n => ∃ t, extract_text env fs (join docDir n) = .ok t ∧
           g p = some (.file t)
       | none => g p = fs p) := by
  induction entries with
  | nil =>
    intro fs g h p
    rw [runConverter_nil] at h
    injection h with h
    rw [lastWriter_nil, h]
  | cons name rest ih =>
    intro fs g h p
    obtain ⟨fs1, hq, hrest⟩ := runConverter_cons_ok_inv env fs g name rest h
    rw [lastWriter_cons]
    by_cases hm : pdfSuffix <:+ name
    · obtain ⟨t, hex, hw, rfl⟩ := processEntry_matched_inv env fs fs1 name hm hq
      rw [if_pos hm]
      have ihh := ih _ g hrest p
      cases hlw : lastWriter rest p with
      | some n =>
        rw [hlw] at ihh
        obtain ⟨t2, hex2, hgp⟩ := ihh
        have hn := (lastWriter_mem hlw).2.1
        have heq : update fs (destOf name) (.file t) (join docDir n) =
            fs (join docDir n) :=
          update_ne fs (destOf name) (.file t) (join docDir n)
            (join_pdf_ne_md hn (mdSuffix_destOf name))
        exact ⟨t2, (extract_text_congr env fs _ (join docDir n) heq.symm).trans hex2, hgp⟩
      | none =>
        rw [hlw] at ihh
        by_cases hd : destOf name = p
        · rw [if_pos hd]
          refine ⟨t, hex, ?_⟩
          rw [ihh, ← hd, update_eq]
        · rw [if_neg hd]
          show g p = fs p
          rw [ihh, update_ne fs (destOf name) (.file t) p (fun e => hd e.symm)]
    · rw [processEntry_skip env fs name hm] at hq
      injection hq with hq
      rw [if_neg hm]
      subst hq
      exact ih fs g hrest p

/-- Success of a run is preserved when the starting file system is replaced
by one agreeing with it outside ".md" paths (the converter reads only ".pdf"
paths). -/
theorem runConverter_ok_transport (env : Env) (l : List Path) :
    ∀ fs₁ fs₂ g₁ : FS, agreeNonMd fs₁ fs₂ →
      runConverter env fs₁ l = .ok g₁ →
      ∃ g₂, runConverter env fs₂ l = .ok g₂ := by
  induction l with
  | nil =>
    intro fs₁ fs₂ g₁ _ _
    exact ⟨fs₂, rfl⟩
  | cons name rest ih =>
    intro fs₁ fs₂ g₁ hrel h
    obtain ⟨fs1, hq, hrest⟩ := runConverter_cons_ok_inv env fs₁ g₁ name rest h
    by_cases hm : pdfSuffix <:+ name
    · obtain ⟨t, hex, hw, rfl⟩ := processEntry_matched_inv env fs₁ fs1 name hm hq
      have hagree : fs₁ (join docDir name) = fs₂ (join docDir name) :=
        hrel (join docDir name) (pdf_not_md (pdfSuffix_join hm))
      have hex2 : extract_text env fs₂ (join docDir name) = .ok t :=
        (extract_text_congr env fs₂ fs₁ (join docDir name) hagree.symm).trans hex
      have hq2 : processEntry env fs₂ name =
          .ok (update fs₂ (destOf name) (.file t)) := by
        unfold processEntry
        rw [if_pos hm]
        unfold pdf_to_markdown
        rw [hex2, hw]
      have hrel2 : agreeNonMd (update fs₁ (destOf name) (.file t))
          (update fs₂ (destOf name) (.file t)) := by
        intro p hp
        have hne : p ≠ destOf name := fun e => hp (e ▸ mdSuffix_destOf name)
        rw [update_ne _ _ _ _ hne, update_ne _ _ _ _ hne]
        exact hrel p hp
      obtain ⟨g₂, hg₂⟩ := ih _ _ g₁ hrel2 hrest
      refine ⟨g₂, ?_⟩
      rw [runConverter_cons, hq2]
      exact hg₂
    · rw [processEntry_skip env fs₁ name hm] at hq
      injection hq with hq
      subst hq
      obtain ⟨g₂, hg₂⟩ := ih fs₁ fs₂ g₁ hrel hrest
      refine ⟨g₂, ?_⟩
      rw [runConverter_cons, processEntry_skip env fs₂ name hm]
      exact hg₂

/-- `rfind` misses a character that does not occur. -/
theorem rfindIdx_eq_none {c : Char} {l : List Char} (h : c ∉ l) :
    rfindIdx c l = none := by
  induction l with
  | nil => rfl
  | cons x xs ih =>
    have hx : ¬ x = c := fun e => h (e ▸ List.mem_cons_self x xs)
    have hxs : c ∉ xs := fun m => h (List.mem_cons_of_mem x m)
    unfold rfindIdx
    rw [ih hxs, if_neg hx]

/-- Unfolding equation of `rfindIdx` on a non-empty list. -/
theorem rfindIdx_cons (c x : Char) (xs : List Char) :
    rfindIdx c (x :: xs) =
      match rfindIdx c xs with
      | some i => some (i + 1)
      | none => if x = c then some 0 else none := rfl

/-- `rfind` over a concatenation prefers the right part and shifts by the
left part's length. -/
theorem rfindIdx_append (c : Char) (l₁ l₂ : List Char) :
    rfindIdx c (l₁ ++ l₂) =
      match rfindIdx c l₂ with
      | some i => some (l₁.length + i)
      | none => rfindIdx c l₁ := by
  induction l₁ with
  | nil =>
    rw [List.nil_append]
    cases h2 : rfindIdx c l₂ with
    | none => rfl
    | some i =>
      show some i = some (0 + i)
      rw [Nat.zero_add]
  | cons x xs ih =>
    rw [List.cons_append, rfindIdx_cons, ih]
    cases h2 : rfindIdx c l₂ with
    | none => rfl
    | some i =>
      show some (xs.length + i + 1) = some ((x :: xs).length + i)
      rw [List.length_cons, Nat.add_right_comm]

/-- On a name of the shape `X ++ ".pdf"` where `X` holds a character other
than a dot and no path separator, `os.path.splitext` splits off exactly the
".pdf" extension. -/
theorem splitext_append_pdf (X : Path) (hnd : ∃ c ∈ X, ¬ c = '.')
    (hsep : '/' ∉ X) :
    splitext (X ++ pdfSuffix) = (X, pdfSuffix) := by
  have hslash : rfindIdx '/' (X ++ pdfSuffix) = none := by
    rw [rfindIdx_append]
    have h2 : rfindIdx '/' pdfSuffix = none := by decide
    rw [h2]
    exact rfindIdx_eq_none hsep
  have hdot : rfindIdx '.' (X ++ pdfSuffix) = some X.length := by
    rw [rfindIdx_append]
    have h2 : rfindIdx '.' pdfSuffix = some 0 := by decide
    rw [h2]
    show some (X.length + 0) = some X.length
    rw [Nat.add_zero]
  have hany : (X.any (fun c => c != '.')) = true := by
    obtain ⟨c, hc, hne⟩ := hnd
    exact List.any_eq_true.2 ⟨c, hc, by simpa using hne⟩
  unfold splitext
  rw [hslash, hdot]
  show (if (((X ++ pdfSuffix).drop 0).take (X.length - 0)).any (fun c => c != '.') = true
      then ((X ++ pdfSuffix).take X.length, (X ++ pdfSuffix).drop X.length)
      else (X ++ pdfSuffix, [])) = (X, pdfSuffix)
  rw [List.drop_zero, Nat.sub_zero, List.take_left, List.drop_left]
  rw [if_pos hany]

/-- Derived destination of a well-behaved name `X ++ ".pdf"`. -/
theorem destOf_append_pdf (X : Path) (hnd : ∃ c ∈ X, ¬ c = '.')
    (hsep : '/' ∉ X) :
    destOf (X ++ pdfSuffix) = join docDir (X ++ mdSuffix) := by
  unfold destOf mdFilename
  rw [splitext_append_pdf X hnd hsep]

/-- A name ending in uppercase ".PDF" does not end in lowercase ".pdf". -/
theorem upper_not_lower {name : Path} (h : ".PDF".data <:+ name) :
    ¬ pdfSuffix <:+ name := by
  intro hm
  rcases List.suffix_or_suffix_of_suffix h hm with h1 | h1
  · exact absurd h1 (by decide)
  · exact absurd h1 (by decide)

/-- C1 (amended): for every file "X.pdf" in the "doc" listing whose base
name X holds at least one character other than '.' (and, being a directory
entry name, no path separator), such that no other matched entry derives the
same destination, a successful run leaves at "doc/X.md" exactly the text
extracted from the content of "doc/X.pdf"; in particular the output content
is non-empty whenever the extracted text is non-empty. -/
theorem claim1_converted_output (env : Env) (fs g : FS) (entries : List Path)
    (X : Path)
    (hrun : runConverter env fs entries = .ok g)
    (hmem : X ++ pdfSuffix ∈ entries)
    (hnd : ∃ c ∈ X, ¬ c = '.')
    (hsep : '/' ∉ X)
    (huniq : ∀ n ∈ entries, pdfSuffix <:+ n →
      destOf n = destOf (X ++ pdfSuffix) → n = X ++ pdfSuffix) :
    ∃ c t, fs (join docDir (X ++ pdfSuffix)) = some (.file c) ∧
      env.extract c = .ok t ∧
      g (join docDir (X ++ mdSuffix)) = some (.file t) := by
  have hpdf : pdfSuffix <:+ X ++ pdfSuffix := List.suffix_append X pdfSuffix
  have hchar := runConverter_char env entries fs g hrun (destOf (X ++ pdfSuffix))
  cases hlw : lastWriter entries (destOf (X ++ pdfSuffix)) with
  | none => exact absurd hlw (lastWriter_of_matched hmem hpdf)
  | some n =>
    rw [hlw] at hchar
    obtain ⟨hn1, hn2, hn3⟩ := lastWriter_mem hlw
    have hn4 : n = X ++ pdfSuffix := huniq n hn1 hn2 hn3
    subst hn4
    obtain ⟨t, hex, hgp⟩ := hchar
    rw [destOf_append_pdf X hnd hsep] at hgp
    unfold extract_text at hex
    cases hfs : fs (join docDir (X ++ pdfSuffix)) with
    | none => rw [hfs] at hex; simp at hex
    | some node =>
      cases node with
      | dir => rw [hfs] at hex; simp at hex
      | file c =>
        rw [hfs] at hex
        exact ⟨c, t, rfl, hex, hgp⟩

/-- C1 witness: in a directory holding the single file "a.pdf" with content
"hello", a run via the identity extraction leaves "hello" at "doc/a.md". -/
theorem claim1_witness :
    ∃ c t, fsA (join docDir ("a".data ++ pdfSuffix)) = some (.file c) ∧
      envId.extract c = .ok t ∧
      fsAafter (join docDir ("a".data ++ mdSuffix)) = some (.file t) :=
  claim1_converted_output envId fsA fsAafter ["a.pdf".data] "a".data rfl
    (by decide) (by decide) (by decide) (by decide)

/-- C1 counterexample: with the single file named exactly ".pdf" in "doc"
(base name X empty), the run succeeds yet no file "doc/.md" exists
afterwards — the output went to "doc/.pdf.md" — refuting the claim at
X = "". -/
theorem claim1_counterexample :
    (runConverter envId fsDotOnly [".pdf".data]).toOption.map
      (fun g => g "doc/.md".data) = some none ∧
    (runConverter envId fsDotOnly [".pdf".data]).toOption.map
      (fun g => g "doc/.pdf.md".data) = some (some (.file "A".data)) :=
  ⟨rfl, rfl⟩

/-- C2 (amended): every entry of "doc" — file or subdirectory — whose NAME
does not end in ".pdf" is silently skipped: a run over a listing of such
entries raises no error and leaves the file system unchanged.  (The original
claim fails for subdirectories whose names do end in ".pdf"; see the
counterexample.) -/
theorem claim2_skips_nonmatching (env : Env) (fs : FS) (entries : List Path)
    (h : ∀ n ∈ entries, ¬ pdfSuffix <:+ n) :
    runConverter env fs entries = .ok fs := by
  induction entries with
  | nil => rfl
  | cons name rest ih =>
    rw [runConverter_cons,
      processEntry_skip env fs name (h name (List.mem_cons_self name rest))]
    exact ih (fun n hn => h n (List.mem_cons_of_mem name hn))

/-- C2 witness: a listing of a text file and an extensionless entry is
processed without error and without any effect. -/
theorem claim2_witness :
    runConverter envId fsA ["notes.txt".data, "sub".data] = .ok fsA :=
  claim2_skips_nonmatching envId fsA ["notes.txt".data, "sub".data] (by decide)

/-- C2 counterexample: a SUBDIRECTORY named "sub.pdf" is not skipped — the
name matches the suffix filter, the converter tries to read it as a PDF, and
the run aborts with an error instead of being silent. -/
theorem claim2_counterexample :
    fsSub "doc/sub.pdf".data = some .dir ∧
    runConverter envId fsSub ["sub.pdf".data] = .error .isADirectory :=
  ⟨rfl, rfl⟩

/-- C3: a directory entry whose name ends in uppercase ".PDF" is not matched
by the case-sensitive ".pdf" filter, is skipped, and produces no output:
the loop iteration leaves the file system unchanged and raises no error. -/
theorem claim3_uppercase_unmatched (env : Env) (fs : FS) (name : Path)
    (h : ".PDF".data <:+ name) :
    ¬ pdfSuffix <:+ name ∧ processEntry env fs name = .ok fs :=
  ⟨upper_not_lower h, processEntry_skip env fs name (upper_not_lower h)⟩

/-- C3 witness: the entry "report.PDF" is unmatched and skipped. -/
theorem claim3_witness :
    ¬ pdfSuffix <:+ "report.PDF".data ∧
    processEntry envId fsA "report.PDF".data = .ok fsA :=
  claim3_uppercase_unmatched envId fsA "report.PDF".data (by decide)

/-- C4: the converter is idempotent — after a successful run producing the
state `g`, running again from `g` over any listing with the same matched
".pdf" entries (the second listing may additionally contain the ".md" files
produced by the first run; they never match) succeeds and reproduces `g`
exactly: every ".md" file is overwritten with identical content and the
final file set and contents equal those after the single run. -/
theorem claim4_idempotent (env : Env) (fs g : FS) (entries entries₂ : List Path)
    (h1 : runConverter env fs entries = .ok g)
    (h2 : matchedPdfs entries₂ = matchedPdfs entries) :
    runConverter env g entries₂ = .ok g := by
  have hm1 : runConverter env fs (matchedPdfs entries) = .ok g := by
    rw [← runConverter_filter]
    exact h1
  have hrel : agreeNonMd fs g := fun p hp =>
    (runConverter_frame env entries fs g h1 p hp).symm
  obtain ⟨g₂, hg₂⟩ :=
    runConverter_ok_transport env (matchedPdfs entries) fs g g hrel hm1
  have hgg : g₂ = g := by
    funext p
    have c1 := runConverter_char env (matchedPdfs entries) fs g hm1 p
    have c2 := runConverter_char env (matchedPdfs entries) g g₂ hg₂ p
    cases hlw : lastWriter (matchedPdfs entries) p with
    | none =>
      rw [hlw] at c1 c2
      rw [c2]
    | some n =>
      rw [hlw] at c1 c2
      obtain ⟨t1, hex1, hg1⟩ := c1
      obtain ⟨t2, hex2, hg2⟩ := c2
      have hn := (lastWriter_mem hlw).2.1
      have hsame : extract_text env g (join docDir n) =
          extract_text env fs (join docDir n) :=
        extract_text_congr env g fs (join docDir n)
          (hrel (join docDir n) (pdf_not_md (pdfSuffix_join hn))).symm
      rw [hsame, hex1] at hex2
      injection hex2 with hh
      rw [hg2, hg1, hh]
  rw [runConverter_filter env entries₂ g, h2, hg₂, hgg]

/-- C4 witness: re-running on the state after converting "a.pdf"
reproduces that state. -/
theorem claim4_witness :
    runConverter envId fsAafter ["a.pdf".data] = .ok fsAafter :=
  claim4_idempotent envId fsA fsAafter ["a.pdf".data] ["a.pdf".data] rfl rfl

/-- C5: for a qualifying entry, when extraction returns `t` and the OS grants
the write, `pdf_to_markdown` succeeds and its result is exactly the input
file system with the destination bound to the file node holding `t`
verbatim — created if absent, overwritten if present — and every other path
untouched. -/
theorem claim5_write_verbatim (env : Env) (fs : FS) (pdf_path md_path : Path)
    (t : Content)
    (hex : extract_text env fs pdf_path = .ok t)
    (hw : env.writePerm md_path = .ok ()) :
    pdf_to_markdown env fs pdf_path md_path = .ok (update fs md_path (.file t)) ∧
    update fs md_path (.file t) md_path = some (.file t) ∧
    ∀ q, q ≠ md_path → update fs md_path (.file t) q = fs q := by
  refine ⟨?_, update_eq fs md_path (.file t),
    fun q hq => update_ne fs md_path (.file t) q hq⟩
  unfold pdf_to_markdown
  rw [hex, hw]

/-- C5 witness: converting "doc/a.pdf" with identity extraction writes
"hello" to "doc/a.md" and leaves "doc/a.pdf" untouched. -/
theorem claim5_witness :
    pdf_to_markdown envId fsA "doc/a.pdf".data "doc/a.md".data =
      .ok (update fsA "doc/a.md".data (.file "hello".data)) ∧
    update fsA "doc/a.md".data (.file "hello".data) "doc/a.pdf".data =
      fsA "doc/a.pdf".data :=
  ⟨(claim5_write_verbatim envId fsA "doc/a.pdf".data "doc/a.md".data
      "hello".data rfl rfl).1,
   (claim5_write_verbatim envId fsA "doc/a.pdf".data "doc/a.md".data
      "hello".data rfl rfl).2.2 "doc/a.pdf".data (by decide)⟩

/-- C6: if, after some prefix of the listing has been processed successfully,
the conversion of the next entry fails (failed extraction, missing file,
directory, or denied write), the whole batch terminates immediately with
that error: the result is the same for every tail of remaining entries, so
no subsequent entry is processed and nothing is retried. -/
theorem claim6_failure_aborts_batch (env : Env) (fs g : FS)
    (pre post : List Path) (name : Path) (e : Err)
    (h1 : runConverter env fs pre = .ok g)
    (h2 : processEntry env g name = .error e) :
    runConverter env fs (pre ++ name :: post) = .error e := by
  rw [runConverter_append env pre (name :: post) fs, h1]
  show runConverter env g (name :: post) = .error e
  rw [runConverter_cons, h2]

/-- C6 witness: with an always-failing extraction, the batch over
["a.pdf", "b.pdf"] aborts at the first entry with the extraction error. -/
theorem claim6_witness :
    runConverter envFail fsA ["a.pdf".data, "b.pdf".data] =
      .error .extractFailed :=
  claim6_failure_aborts_batch envFail fsA fsA [] ["b.pdf".data]
    "a.pdf".data .extractFailed rfl rfl

/-- C7: the Image Generator allocates a 300×200 RGB canvas with every pixel
set to "lightblue", renders "Test Image" at offset (50, 90) in "black" on
that canvas (and nothing else changes the pixel grid), persists the JPEG
encoding of the drawn canvas at exactly "test-image.jpg" (leaving every
other file untouched), and prints the fixed confirmation line. -/
theorem claim7_image_generator (env : ImgEnv) (w : World) :
    (imageNew "RGB" (300, 200) "lightblue").width = 300 ∧
    (imageNew "RGB" (300, 200) "lightblue").height = 200 ∧
    (imageNew "RGB" (300, 200) "lightblue").mode = "RGB" ∧
    (∀ x y, (imageNew "RGB" (300, 200) "lightblue").pixel x y = "lightblue") ∧
    (drawText env (50, 90) "Test Image" "black"
        (imageNew "RGB" (300, 200) "lightblue")).pixel =
      env.renderText (50, 90) "Test Image" "black" (fun _ _ => "lightblue") ∧
    (drawText env (50, 90) "Test Image" "black"
        (imageNew "RGB" (300, 200) "lightblue")).width = 300 ∧
    (drawText env (50, 90) "Test Image" "black"
        (imageNew "RGB" (300, 200) "lightblue")).height = 200 ∧
    (createTestImage env w).files "test-image.jpg" =
      some (env.encode "JPEG" (drawText env (50, 90) "Test Image" "black"
        (imageNew "RGB" (300, 200) "lightblue"))) ∧
    (createTestImage env w).out = w.out ++ ["Test image created successfully"] ∧
    ∀ q, q ≠ "test-image.jpg" → (createTestImage env w).files q = w.files q := by
  refine ⟨rfl, rfl, rfl, fun x y => rfl, rfl, rfl, rfl, ?_, rfl, fun q hq => ?_⟩
  · simp [createTestImage, printLine, imgSave, drawText, imageNew]
  · simp [createTestImage, printLine, imgSave, hq]

/-- C7 witness: the theorem at a concrete environment and empty world. -/
theorem claim7_witness :
    (imageNew "RGB" (300, 200) "lightblue").width = 300 ∧
    (imageNew "RGB" (300, 200) "lightblue").height = 200 ∧
    (imageNew "RGB" (300, 200) "lightblue").mode = "RGB" ∧
    (∀ x y, (imageNew "RGB" (300, 200) "lightblue").pixel x y = "lightblue") ∧
    (drawText imgEnvConst (50, 90) "Test Image" "black"
        (imageNew "RGB" (300, 200) "lightblue")).pixel =
      imgEnvConst.renderText (50, 90) "Test Image" "black"
        (fun _ _ => "lightblue") ∧
    (drawText imgEnvConst (50, 90) "Test Image" "black"
        (imageNew "RGB" (300, 200) "lightblue")).width = 300 ∧
    (drawText imgEnvConst (50, 90) "Test Image" "black"
        (imageNew "RGB" (300, 200) "lightblue")).height = 200 ∧
    (createTestImage imgEnvConst worldEmpty).files "test-image.jpg" =
      some (imgEnvConst.encode "JPEG" (drawText imgEnvConst (50, 90)
        "Test Image" "black" (imageNew "RGB" (300, 200) "lightblue"))) ∧
    (createTestImage imgEnvConst worldEmpty).out =
      worldEmpty.out ++ ["Test image created successfully"] ∧
    ∀ q, q ≠ "test-image.jpg" →
      (createTestImage imgEnvConst worldEmpty).files q = worldEmpty.files q :=
  claim7_image_generator imgEnvConst worldEmpty

/-- C8 (amended): the final state of a successful run does not depend on the
enumeration order, PROVIDED no two distinct matched entries derive the same
destination path: for any permutation of the listing, two successful runs
from the same initial state end in identical file systems.  (Without the
proviso the claim fails; see the counterexample, where ".pdf" and
".pdf.pdf" both write "doc/.pdf.md".) -/
theorem claim8_order_independent (env : Env) (fs g₁ g₂ : FS)
    (e₁ e₂ : List Path)
    (hperm : List.Perm e₁ e₂)
    (huniq : ∀ a ∈ e₁, ∀ b ∈ e₁, pdfSuffix <:+ a → pdfSuffix <:+ b →
      destOf a = destOf b → a = b)
    (h1 : runConverter env fs e₁ = .ok g₁)
    (h2 : runConverter env fs e₂ = .ok g₂) :
    g₁ = g₂ := by
  funext p
  have c1 := runConverter_char env e₁ fs g₁ h1 p
  have c2 := runConverter_char env e₂ fs g₂ h2 p
  have hlw : lastWriter e₁ p = lastWriter e₂ p := by
    unfold lastWriter
    refine find?_eq_of_perm_unique _ _ _ ?_ ?_
    · exact (List.reverse_perm (matchedPdfs e₁)).trans
        ((hperm.filter _).trans (List.reverse_perm (matchedPdfs e₂)).symm)
    · intro a ha b hb qa qb
      rw [List.mem_reverse] at ha hb
      have ha2 : a ∈ e₁.filter (fun n => decide (pdfSuffix <:+ n)) := ha
      have hb2 : b ∈ e₁.filter (fun n => decide (pdfSuffix <:+ n)) := hb
      obtain ⟨ham, hap⟩ := List.mem_filter.1 ha2
      obtain ⟨hbm, hbp⟩ := List.mem_filter.1 hb2
      exact huniq a ham b hbm (of_decide_eq_true hap) (of_decide_eq_true hbp)
        ((of_decide_eq_true qa).trans (of_decide_eq_true qb).symm)
  rw [hlw] at c1
  cases hlw2 : lastWriter e₂ p with
  | none =>
    rw [hlw2] at c1 c2
    rw [c1, c2]
  | some n =>
    rw [hlw2] at c1 c2
    obtain ⟨t1, hex1, hg1⟩ := c1
    obtain ⟨t2, hex2, hg2⟩ := c2
    rw [hex1] at hex2
    injection hex2 with hh
    rw [hg1, hg2, hh]

/-- C8 witness: converting "a.pdf" then "b.pdf", or "b.pdf" then "a.pdf",
ends in the same file system (their destinations are distinct). -/
theorem claim8_witness : fsABboth1 = fsABboth2 :=
  claim8_order_independent envId fsAB fsABboth1 fsABboth2
    ["a.pdf".data, "b.pdf".data] ["b.pdf".data, "a.pdf".data]
    (List.Perm.swap "b.pdf".data "a.pdf".data []) (by decide) rfl rfl

/-- C8 counterexample: the files ".pdf" (content "A") and ".pdf.pdf"
(content "B") both derive the destination "doc/.pdf.md"; the two
enumeration orders are permutations of each other, both runs succeed, yet
the surviving content at "doc/.pdf.md" differs ("B" versus "A"), so the
final file contents DO depend on enumeration order. -/
theorem claim8_counterexample :
    List.Perm [".pdf".data, ".pdf.pdf".data] [".pdf.pdf".data, ".pdf".data] ∧
    (runConverter envId fsDot [".pdf".data, ".pdf.pdf".data]).toOption.map
      (fun g => g "doc/.pdf.md".data) = some (some (.file "B".data)) ∧
    (runConverter envId fsDot [".pdf.pdf".data, ".pdf".data]).toOption.map
      (fun g => g "doc/.pdf.md".data) = some (some (.file "A".data)) ∧
    (some (some (Node.file "B".data)) : Option (Option Node)) ≠
      some (some (Node.file "A".data)) :=
  ⟨List.Perm.swap ".pdf.pdf".data ".pdf".data [], rfl, rfl, by decide⟩

/-- C9: the entry named exactly ".pdf" matches the suffix filter;
`os.path.splitext` treats the whole name as the base (the leading dot never
starts an extension), so the derived output name is ".pdf.md" — the write
goes to "doc/.pdf.md" and not to "doc/.md". -/
theorem claim9_dot_pdf_entry (env : Env) (fs : FS) (c t : Content)
    (hfs : fs "doc/.pdf".data = some (.file c))
    (hex : env.extract c = .ok t)
    (hw : env.writePerm "doc/.pdf.md".data = .ok ()) :
    (pdfSuffix <:+ ".pdf".data) ∧
    mdFilename ".pdf".data = ".pdf.md".data ∧
    destOf ".pdf".data = "doc/.pdf.md".data ∧
    ¬ destOf ".pdf".data = "doc/.md".data ∧
    processEntry env fs ".pdf".data =
      .ok (update fs "doc/.pdf.md".data (.file t)) := by
  refine ⟨by decide, by decide, by decide, by decide, ?_⟩
  have h1 : extract_text env fs "doc/.pdf".data = .ok t := by
    unfold extract_text
    rw [hfs]
    exact hex
  show pdf_to_markdown env fs "doc/.pdf".data "doc/.pdf.md".data =
    .ok (update fs "doc/.pdf.md".data (.file t))
  unfold pdf_to_markdown
  rw [h1, hw]

/-- C9 witness: the theorem at the concrete directory holding ".pdf" with
content "A" under the identity extraction. -/
theorem claim9_witness :
    (pdfSuffix <:+ ".pdf".data) ∧
    mdFilename ".pdf".data = ".pdf.md".data ∧
    destOf ".pdf".data = "doc/.pdf.md".data ∧
    ¬ destOf ".pdf".data = "doc/.md".data ∧
    processEntry envId fsDotOnly ".pdf".data =
      .ok (update fsDotOnly "doc/.pdf.md".data (.file "A".data)) :=
  claim9_dot_pdf_entry envId fsDotOnly "A".data "A".data rfl rfl rfl

/-- C10: a successful run never modifies, deletes, or overwrites any path
ending in ".pdf": every write of the converter targets a path ending in
".md", so all source PDFs are unchanged afterwards. -/
theorem claim10_sources_untouched (env : Env) (fs g : FS)
    (entries : List Path) (p : Path)
    (hrun : runConverter env fs entries = .ok g)
    (hp : pdfSuffix <:+ p) :
    g p = fs p :=
  runConverter_frame env entries fs g hrun p (pdf_not_md hp)

/-- C10 witness: after converting "a.pdf", the source "doc/a.pdf" is
unchanged. -/
theorem claim10_witness :
    fsAafter "doc/a.pdf".data = fsA "doc/a.pdf".data :=
  claim10_sources_untouched envId fsA fsAafter ["a.pdf".data]
    "doc/a.pdf".data rfl (by decide)

end HerbisVeritas
